import Mathlib

/-!
Shallow embedding of `src/piqmc/qmc.pyx` (path-integral quantum Monte Carlo
annealing).  The module has two entry points, `QuantumAnneal` (serial) and
`QuantumAnneal_parallel`; their per-spin energy-difference code (intra-slice
neighbor loop, periodic Trotter boundary selection, jperp coupling terms and
Metropolis-style accept/reject) is textually identical, so it is embedded once
and used by both.

Modelling choices:
* C `float`/`np.float_` values are modelled as real numbers `ℝ`.
* the spin configuration `confs` is a total function `ℕ → ℤ → ℝ`
  (spin index, Trotter-slice index); a write is a pointwise override.
  Slice indices live in `ℤ` because the source's boundary arithmetic
  (`slices-1`, `slices-2`, `islice-1`) can leave `[0, slices)`.
* the neighbor table `nbs` maps `(sidx, si)` to the pair
  `(int(nbs[sidx,si,0]), nbs[sidx,si,1])`; `maxnb = nbs[0].shape[0]` is an
  explicit parameter.
* the injected generator `rng` is modelled by a stream
  `perms : ℕ → List ℕ → List ℕ` of permutation functions together with a
  counter `pctr` of how many `rng.permutation` calls were made.
* the C library `rand()` draws used by the acceptance test
  (`crand()/float(RAND_MAX)`) are a stream `us : ℕ → ℝ` with a cursor
  `uctr`; the cursor advances exactly when the `elif` arm is evaluated,
  i.e. when `ediff > 0` fails, because Python short-circuits the `elif`.
* the local variable `tidx` is declared `cdef int tidx = 0` and never
  reassigned anywhere in either engine, so every use of it is the literal 0;
  the embedding passes that constant where the source reads `tidx`.
-/

/-- Spin configuration: spin index × slice index → value. -/
def Conf : Type := ℕ → ℤ → ℝ

/-- Neighbor table: spin index × entry index → (neighbor spin index, coupling). -/
def Nbs : Type := ℕ → ℕ → ℕ × ℝ

/-- Pointwise update of a configuration at one (spin, slice) cell
(`confs[sidx, islice] = v`). -/
def writeConf (c : Conf) (sidx : ℕ) (islice : ℤ) (v : ℝ) : Conf :=
  fun i k => if i = sidx ∧ k = islice then v else c i k

/-- The periodic-boundary branch of both engines (qmc.pyx lines 96-104 and
193-201): given `slices`, the loop variable `islice` and the variable `tidx`,
produce `(tleft, tright)`.  In the source `tidx` is initialized to 0 and never
updated, so the callers below always pass `0` for it. -/
def trotterIndices (slices islice tidx : ℤ) : ℤ × ℤ :=
  if tidx = 0 then (slices - 1, 1)
  else if tidx = slices - 1 then (slices - 2, 0)
  else (islice - 1, islice + 1)

/-- One iteration of the neighbor loop (qmc.pyx lines 84-94 / 181-191): the
contribution of entry `si` of spin `sidx`'s neighbor list to the energy
difference.  A self-entry (`spinidx == sidx`) contributes the coupling without
a second spin factor. -/
def neighborTerm (confs : Conf) (nbs : Nbs) (sidx : ℕ) (islice : ℤ) (si : ℕ) : ℝ :=
  let spinidx := (nbs sidx si).1
  let jval := (nbs sidx si).2
  if spinidx = sidx then
    -2 * confs sidx islice * jval
  else
    -2 * confs sidx islice * (jval * confs spinidx islice)

/-- The full neighbor loop `for si in xrange(maxnb)` accumulating into an
incoming energy difference `e0` (the serial engine enters it with whatever is
left in `ediff`; the parallel engine enters it with the zeroed slot
`ediffs[sidx]`). -/
def intraAccum (maxnb : ℕ) (confs : Conf) (nbs : Nbs) (sidx : ℕ) (islice : ℤ)
    (e0 : ℝ) : ℝ :=
  (List.range maxnb).foldl (fun e si => e + neighborTerm confs nbs sidx islice si) e0

/-- The complete per-spin energy difference of both engines (qmc.pyx lines
83-109 / 180-206): the neighbor loop followed by the two inter-slice coupling
terms selected by `trotterIndices` with the source's constant `tidx = 0`. -/
def spinEdiff (maxnb : ℕ) (slices : ℤ) (jperp : ℝ) (confs : Conf) (nbs : Nbs)
    (sidx : ℕ) (islice : ℤ) (e0 : ℝ) : ℝ :=
  let e1 := intraAccum maxnb confs nbs sidx islice e0
  let tlr := trotterIndices slices islice 0
  let e2 := e1 + -2 * confs sidx islice * (jperp * confs sidx tlr.1)
  e2 + -2 * confs sidx islice * (jperp * confs sidx tlr.2)

/-- Per-spin energy difference as computed by the parallel engine, whose
scratch slot `ediffs[sidx]` is zero when the spin's turn starts (the buffer is
`np.zeros(nspins)` initially and refilled with zeros after every slice). -/
def parallelSpinEdiff (maxnb : ℕ) (slices : ℤ) (jperp : ℝ) (confs : Conf)
    (nbs : Nbs) (sidx : ℕ) (islice : ℤ) : ℝ :=
  spinEdiff maxnb slices jperp confs nbs sidx islice 0

/-- Mutable state threaded through the serial engine's spin loop:
the configuration, the accumulator `ediff`, and the cursor into the
`crand()` draw stream. -/
structure SweepState where
  confs : Conf
  ediff : ℝ
  uctr : ℕ

open Classical in
/-- One iteration of the serial spin loop (qmc.pyx lines 81-114): accumulate
the energy difference for spin `sidx` on slice `islice` on top of the incoming
`ediff`, then accept or reject the flip.  `ediff` is NOT reset here: the
source resets it only after the whole spin loop of a slice. -/
noncomputable def spinUpdate (maxnb : ℕ) (slices : ℤ) (temp jperp : ℝ)
    (nbs : Nbs) (us : ℕ → ℝ) (islice : ℤ) (st : SweepState) (sidx : ℕ) :
    SweepState :=
  let d := spinEdiff maxnb slices jperp st.confs nbs sidx islice st.ediff
  if d > 0 then
    ⟨writeConf st.confs sidx islice (st.confs sidx islice * (-1)), d, st.uctr⟩
  else if Real.exp (d / temp) > us st.uctr then
    ⟨writeConf st.confs sidx islice (st.confs sidx islice * (-1)), d, st.uctr + 1⟩
  else
    ⟨st.confs, d, st.uctr + 1⟩

/-- The serial engine's sweep of one Trotter slice (the body of
`for islice in xrange(slices)`, qmc.pyx lines 81-116): the spin loop in the
order `order` (the current `sidx_shuff`), then `ediff = 0.0`. -/
noncomputable def sliceSweep (maxnb : ℕ) (slices : ℤ) (temp jperp : ℝ)
    (nbs : Nbs) (us : ℕ → ℝ) (order : List ℕ) (islice : ℤ) (st : SweepState) :
    SweepState :=
  let st1 := order.foldl (spinUpdate maxnb slices temp jperp nbs us islice) st
  ⟨st1.confs, 0, st1.uctr⟩

/-- Full state of one serial anneal call: the sweep state plus the current
spin ordering `sidx_shuff` and the count of `rng.permutation` calls made. -/
structure QState where
  confs : Conf
  ediff : ℝ
  uctr : ℕ
  shuff : List ℕ
  pctr : ℕ

/-- One Monte Carlo step of the serial engine (the body of
`for step in xrange(mcsteps)`, qmc.pyx lines 78-117): sweep every slice with
the current ordering, then `sidx_shuff = rng.permutation(sidx_shuff)`. -/
noncomputable def mcStep (maxnb slices : ℕ) (temp jperp : ℝ) (nbs : Nbs)
    (us : ℕ → ℝ) (perms : ℕ → List ℕ → List ℕ) (st : QState) : QState :=
  let s1 := (List.range slices).foldl
    (fun (s : QState) (islice : ℕ) =>
      let sw := sliceSweep maxnb (slices : ℤ) temp jperp nbs us s.shuff
        (islice : ℤ) ⟨s.confs, s.ediff, s.uctr⟩
      ⟨sw.confs, sw.ediff, sw.uctr, s.shuff, s.pctr⟩)
    st
  ⟨s1.confs, s1.ediff, s1.uctr, perms s1.pctr s1.shuff, s1.pctr + 1⟩

/-- The inter-slice coupling coefficient computed once per schedule point
(qmc.pyx line 76 / line 171):
`jperp = -0.5*slices*temp*np.log(np.tanh(sched[ifield]/(slices*temp)))`. -/
noncomputable def jperpFormula (slices : ℕ) (temp field : ℝ) : ℝ :=
  -0.5 * (slices : ℝ) * temp * Real.log (Real.tanh (field / ((slices : ℝ) * temp)))

/-- Processing of one schedule point by the serial engine (the body of
`for ifield in xrange(sched.size)`, qmc.pyx lines 74-117): compute `jperp`
from the field value, then run `mcsteps` Monte Carlo steps with it. -/
noncomputable def fieldStep (maxnb slices mcsteps : ℕ) (temp : ℝ) (nbs : Nbs)
    (us : ℕ → ℝ) (perms : ℕ → List ℕ → List ℕ) (st : QState) (field : ℝ) :
    QState :=
  let jperp := jperpFormula slices temp field
  (List.range mcsteps).foldl (fun s _ => mcStep maxnb slices temp jperp nbs us perms s) st

/-- The serial entry point `QuantumAnneal` (qmc.pyx lines 28-117).  Before the
schedule loop it requests one permutation of `range(nspins)` from the injected
generator (`sidx_shuff = rng.permutation(range(nspins))`, lines 70-71), which
is the generator's first call (`pctr` goes from 0 to 1).  The final state
carries the mutated configuration. -/
noncomputable def QuantumAnneal (sched : List ℝ) (mcsteps slices : ℕ)
    (temp : ℝ) (nspins : ℕ) (confs : Conf) (nbs : Nbs) (maxnb : ℕ)
    (perms : ℕ → List ℕ → List ℕ) (us : ℕ → ℝ) : QState :=
  let init : QState := ⟨confs, 0, 0, perms 0 (List.range nspins), 1⟩
  sched.foldl (fieldStep maxnb slices mcsteps temp nbs us perms) init

/-- All entries of a configuration are ±1. -/
def PM1 (c : Conf) : Prop := ∀ i k, c i k = 1 ∨ c i k = -1

/-! Basic sanity checks of the embedding on trivial inputs. -/

example : trotterIndices 5 0 0 = (4, 1) := by decide

example : intraAccum 0 (fun _ _ => 1) (fun _ _ => (0, 0)) 0 0 3 = 3 := rfl

/-! ### C1: periodic Trotter boundary selection -/

/-- C1: the source never updates `tidx` away from 0, so the periodic-boundary
selection takes the first branch for every slice: with `slices = 3` the
interior slice 1 gets `(tleft, tright) = (2, 1)` instead of the modular
`(0, 2)` the claim states, and the last slice 2 gets `(2, 1)` instead of
`(1, 0)`; with `slices = 2`, slice 1 also gets `(1, 1)` instead of `(0, 0)`.
At the engine level, on a configuration holding 11 on slice 0, 1 on slice 1
and 7 on slice 2 with no intra-slice neighbors and `jperp = 1`, the energy
difference computed for slice 1 is `-2*1*7 + -2*1*1 = -16` (reading slices 2
and 1), not the `-2*1*11 + -2*1*7 = -36` the claimed modular wrap would give. -/
theorem trotterIndices_stuck_at_tidx_zero :
    trotterIndices 3 1 0 = (2, 1) ∧
    trotterIndices 3 2 0 = (2, 1) ∧
    trotterIndices 2 1 0 = (1, 1) ∧
    spinEdiff 0 3 1 (fun _ k => if k = 1 then 1 else if k = 2 then 7 else 11)
      (fun _ _ => (0, 0)) 0 1 0 = -16 := by
  refine ⟨by decide, by decide, by decide, ?_⟩
  simp only [spinEdiff, intraAccum, trotterIndices, List.range_zero, List.foldl_nil]
  norm_num

/-! ### C7: slices = 1 -/

/-- C7: with `slices = 1` the source's boundary branch (`tidx = 0`) yields
`tleft = 0` but `tright = 1`, and 1 is not a valid slice index for a
single-slice configuration (`¬ 1 < 1`), so the right-slice read is out of
bounds, contradicting the claim that both neighbors resolve to slice 0. -/
theorem trotterIndices_single_slice_oob :
    trotterIndices 1 0 0 = (0, 1) ∧ ¬ ((trotterIndices 1 0 0).2 < 1) := by
  decide

/-! ### C9: empty schedule -/

/-- C9: calling the serial anneal with an empty schedule leaves the
configuration exactly as it was passed in: the schedule loop body never runs
and nothing is ever written to the configuration. -/
theorem quantumAnneal_empty_sched_confs (mcsteps slices : ℕ) (temp : ℝ)
    (nspins : ℕ) (confs : Conf) (nbs : Nbs) (maxnb : ℕ)
    (perms : ℕ → List ℕ → List ℕ) (us : ℕ → ℝ) :
    (QuantumAnneal [] mcsteps slices temp nspins confs nbs maxnb perms us).confs
      = confs := rfl

/-! ### C10: one permutation request before the schedule loop -/

/-- C10: the serial entry point requests one permutation of
`List.range nspins` from the injected generator before looking at the
schedule, so after a call with an empty schedule the generator has been
consulted exactly once (the call counter is 1) and the current ordering is
the result of that single call. -/
theorem quantumAnneal_empty_sched_one_perm (mcsteps slices : ℕ) (temp : ℝ)
    (nspins : ℕ) (confs : Conf) (nbs : Nbs) (maxnb : ℕ)
    (perms : ℕ → List ℕ → List ℕ) (us : ℕ → ℝ) :
    (QuantumAnneal [] mcsteps slices temp nspins confs nbs maxnb perms us).pctr = 1 ∧
    (QuantumAnneal [] mcsteps slices temp nspins confs nbs maxnb perms us).shuff
      = perms 0 (List.range nspins) := ⟨rfl, rfl⟩

/-! ### C2: intra-slice part of the energy difference -/

/-- Sequential accumulation over `List.range` is the same as adding the sum. -/
theorem foldl_add_range (f : ℕ → ℝ) (n : ℕ) (e0 : ℝ) :
    (List.range n).foldl (fun e i => e + f i) e0 = e0 + ∑ i ∈ Finset.range n, f i := by
  induction n with
  | zero => simp
  | succ m ih =>
    rw [List.range_succ, List.foldl_append, Finset.sum_range_succ, ih]
    simp [add_assoc]

/-- C2: the neighbor loop shared by both engines adds to the incoming
accumulator the sum, over all `maxnb` entries of spin `sidx`'s neighbor list,
of `-2 * currentSpinValue * coupling * neighborSpinValue` for an entry whose
index differs from `sidx`, and `-2 * currentSpinValue * coupling` (no second
spin factor) for a self-entry. -/
theorem intraAccum_eq_sum (maxnb : ℕ) (confs : Conf) (nbs : Nbs) (sidx : ℕ)
    (islice : ℤ) (e0 : ℝ) :
    intraAccum maxnb confs nbs sidx islice e0
      = e0 + ∑ si ∈ Finset.range maxnb,
          (if (nbs sidx si).1 = sidx then
            -2 * confs sidx islice * (nbs sidx si).2
          else
            -2 * confs sidx islice * ((nbs sidx si).2 * confs (nbs sidx si).1 islice)) := by
  rw [intraAccum, foldl_add_range]
  simp only [neighborTerm]

/-! ### C3: Metropolis-style acceptance rule of the serial engine -/

/-- C3: in the serial engine, writing `d` for the accumulated energy
difference at the decision point, the spin's value is negated exactly when
`d > 0` (unconditional accept) or `exp(d / temp)` strictly exceeds the current
`crand()/RAND_MAX` draw; otherwise the whole configuration is left
unchanged.  The hypothesis excludes the degenerate spin value 0 (a real ±1
configuration satisfies it), for which "negated" and "unchanged" coincide. -/
theorem spinUpdate_acceptance (maxnb : ℕ) (slices : ℤ) (temp jperp : ℝ)
    (nbs : Nbs) (us : ℕ → ℝ) (islice : ℤ) (st : SweepState) (sidx : ℕ)
    (h : st.confs sidx islice ≠ 0) :
    ((spinUpdate maxnb slices temp jperp nbs us islice st sidx).confs sidx islice
        = -(st.confs sidx islice)
      ↔ (spinEdiff maxnb slices jperp st.confs nbs sidx islice st.ediff > 0 ∨
          Real.exp (spinEdiff maxnb slices jperp st.confs nbs sidx islice st.ediff / temp)
            > us st.uctr))
    ∧ (¬ (spinEdiff maxnb slices jperp st.confs nbs sidx islice st.ediff > 0 ∨
          Real.exp (spinEdiff maxnb slices jperp st.confs nbs sidx islice st.ediff / temp)
            > us st.uctr) →
        (spinUpdate maxnb slices temp jperp nbs us islice st sidx).confs = st.confs) := by
  unfold spinUpdate
  by_cases h1 : spinEdiff maxnb slices jperp st.confs nbs sidx islice st.ediff > 0
  · rw [if_pos h1]
    exact ⟨iff_of_true (by simp [writeConf]) (Or.inl h1), fun hc => absurd (Or.inl h1) hc⟩
  · rw [if_neg h1]
    by_cases h2 : Real.exp (spinEdiff maxnb slices jperp st.confs nbs sidx islice
        st.ediff / temp) > us st.uctr
    · rw [if_pos h2]
      exact ⟨iff_of_true (by simp [writeConf]) (Or.inr h2), fun hc => absurd (Or.inr h2) hc⟩
    · rw [if_neg h2]
      refine ⟨iff_of_false (fun he => h (by linarith)) (fun hc => hc.elim h1 h2), fun _ => rfl⟩

/-- The all-ones configuration, used to instantiate hypotheses on concrete
inputs. -/
def confOne : Conf := fun _ _ => 1

/-- A neighbor table whose single entry for every spin is a zero-coupling
self-entry on spin 0. -/
def nbsZero : Nbs := fun _ _ => (0, 0)

/-- Closed instantiation of `spinUpdate_acceptance`: one spin of value 1,
no neighbors, `jperp = 0`, draw constantly 2. -/
theorem spinUpdate_acceptance_witness :
    ((spinUpdate 0 1 1 0 nbsZero (fun _ => 2) 0 ⟨confOne, 0, 0⟩ 0).confs 0 0
        = -(confOne 0 0)
      ↔ (spinEdiff 0 1 0 confOne nbsZero 0 0 0 > 0 ∨
          Real.exp (spinEdiff 0 1 0 confOne nbsZero 0 0 0 / 1) > 2))
    ∧ (¬ (spinEdiff 0 1 0 confOne nbsZero 0 0 0 > 0 ∨
          Real.exp (spinEdiff 0 1 0 confOne nbsZero 0 0 0 / 1) > 2) →
        (spinUpdate 0 1 1 0 nbsZero (fun _ => 2) 0 ⟨confOne, 0, 0⟩ 0).confs = confOne) :=
  spinUpdate_acceptance 0 1 1 0 nbsZero (fun _ => 2) 0 ⟨confOne, 0, 0⟩ 0
    (by simp [confOne])

/-! ### C5: the inter-slice coupling coefficient -/

/-- C5: each schedule point is processed by computing the inter-slice
coefficient once, as `jperpFormula`, and running all `mcsteps` Monte Carlo
steps with that one value; and the formula instantiates, at `slices = 2`,
`temp = 1`, `field = 1`, to `-1 * ln (tanh 0.5)`. -/
theorem jperpFormula_spec :
    (∀ (maxnb slices mcsteps : ℕ) (temp : ℝ) (nbs : Nbs) (us : ℕ → ℝ)
        (perms : ℕ → List ℕ → List ℕ) (st : QState) (field : ℝ),
        fieldStep maxnb slices mcsteps temp nbs us perms st field
          = (List.range mcsteps).foldl
              (fun s _ =>
                mcStep maxnb slices temp (jperpFormula slices temp field) nbs us perms s)
              st)
    ∧ jperpFormula 2 1 1 = -1 * Real.log (Real.tanh 0.5) := by
  refine ⟨fun _ _ _ _ _ _ _ _ _ => rfl, ?_⟩
  unfold jperpFormula
  norm_num

/-! ### C6: the configuration stays in {-1, +1} -/

/-- A fold preserves any invariant its step function preserves. -/
theorem foldl_preserves {α : Type} {β : Type} (P : α → Prop) (f : α → β → α)
    (l : List β) (hf : ∀ s b, P s → P (f s b)) :
    ∀ s, P s → P (l.foldl f s) := by
  induction l with
  | nil => exact fun s hs => hs
  | cons b t ih => exact fun s hs => ih _ (hf s b hs)

/-- Flipping one cell of a ±1 configuration (the source's
`confs[sidx, islice] *= -1`) keeps every entry in {-1, +1}. -/
theorem pm1_writeConf_flip (c : Conf) (sidx : ℕ) (islice : ℤ) (h : PM1 c) :
    PM1 (writeConf c sidx islice (c sidx islice * (-1))) := by
  intro i k
  unfold writeConf
  split_ifs with hc
  · rcases h sidx islice with h1 | h1 <;> rw [h1] <;> norm_num
  · exact h i k

/-- One serial spin update keeps every configuration entry in {-1, +1}. -/
theorem pm1_spinUpdate (maxnb : ℕ) (slices : ℤ) (temp jperp : ℝ) (nbs : Nbs)
    (us : ℕ → ℝ) (islice : ℤ) (st : SweepState) (sidx : ℕ)
    (h : PM1 st.confs) :
    PM1 ((spinUpdate maxnb slices temp jperp nbs us islice st sidx).confs) := by
  simp only [spinUpdate]
  split_ifs with h1 h2
  · exact pm1_writeConf_flip _ _ _ h
  · exact pm1_writeConf_flip _ _ _ h
  · exact h

/-- A full slice sweep keeps every configuration entry in {-1, +1}. -/
theorem pm1_sliceSweep (maxnb : ℕ) (slices : ℤ) (temp jperp : ℝ) (nbs : Nbs)
    (us : ℕ → ℝ) (order : List ℕ) (islice : ℤ) (st : SweepState)
    (h : PM1 st.confs) :
    PM1 ((sliceSweep maxnb slices temp jperp nbs us order islice st).confs) := by
  simp only [sliceSweep]
  exact foldl_preserves (fun s : SweepState => PM1 s.confs) _ order
    (fun s b hs => pm1_spinUpdate maxnb slices temp jperp nbs us islice s b hs) st h

/-- One Monte Carlo step keeps every configuration entry in {-1, +1}. -/
theorem pm1_mcStep (maxnb slices : ℕ) (temp jperp : ℝ) (nbs : Nbs)
    (us : ℕ → ℝ) (perms : ℕ → List ℕ → List ℕ) (st : QState)
    (h : PM1 st.confs) : PM1 ((mcStep maxnb slices temp jperp nbs us perms st).confs) := by
  simp only [mcStep]
  refine foldl_preserves (fun s : QState => PM1 s.confs) _ (List.range slices) ?_ st h
  intro s b hs
  exact pm1_sliceSweep maxnb (slices : ℤ) temp jperp nbs us s.shuff (b : ℤ)
    ⟨s.confs, s.ediff, s.uctr⟩ hs

/-- One schedule point keeps every configuration entry in {-1, +1}. -/
theorem pm1_fieldStep (maxnb slices mcsteps : ℕ) (temp : ℝ) (nbs : Nbs)
    (us : ℕ → ℝ) (perms : ℕ → List ℕ → List ℕ) (st : QState) (field : ℝ)
    (h : PM1 st.confs) :
    PM1 ((fieldStep maxnb slices mcsteps temp nbs us perms st field).confs) := by
  simp only [fieldStep]
  exact foldl_preserves (fun s : QState => PM1 s.confs) _ (List.range mcsteps)
    (fun s _ hs => pm1_mcStep maxnb slices temp _ nbs us perms s hs) st h

/-- C6: starting from a configuration whose entries are all ±1, every entry
is still ±1 after any single spin update (the only operation that ever writes
to the configuration) and after a whole serial anneal call, whatever the
schedule, parameters, neighbor table and random streams. -/
theorem anneal_preserves_pm1 :
    (∀ (maxnb : ℕ) (slices : ℤ) (temp jperp : ℝ) (nbs : Nbs) (us : ℕ → ℝ)
        (islice : ℤ) (st : SweepState) (sidx : ℕ), PM1 st.confs →
        PM1 ((spinUpdate maxnb slices temp jperp nbs us islice st sidx).confs))
    ∧ (∀ (sched : List ℝ) (mcsteps slices : ℕ) (temp : ℝ) (nspins : ℕ)
        (confs : Conf) (nbs : Nbs) (maxnb : ℕ) (perms : ℕ → List ℕ → List ℕ)
        (us : ℕ → ℝ), PM1 confs →
        PM1 ((QuantumAnneal sched mcsteps slices temp nspins confs nbs maxnb
          perms us).confs)) := by
  refine ⟨pm1_spinUpdate, ?_⟩
  intro sched mcsteps slices temp nspins confs nbs maxnb perms us h
  unfold QuantumAnneal
  exact foldl_preserves (fun s : QState => PM1 s.confs) _ sched
    (fun s b hs => pm1_fieldStep maxnb slices mcsteps temp nbs us perms s b hs)
    ⟨confs, 0, 0, perms 0 (List.range nspins), 1⟩ h

/-- Closed instantiation of `anneal_preserves_pm1` on a concrete anneal call
from the all-ones configuration. -/
theorem anneal_preserves_pm1_witness :
    (QuantumAnneal [1] 1 2 1 1 confOne nbsZero 1 (fun _ l => l)
        (fun _ => 0)).confs 0 0 = 1 ∨
    (QuantumAnneal [1] 1 2 1 1 confOne nbsZero 1 (fun _ l => l)
        (fun _ => 0)).confs 0 0 = -1 :=
  anneal_preserves_pm1.2 [1] 1 2 1 1 confOne nbsZero 1 (fun _ l => l)
    (fun _ => 0) (fun _ _ => Or.inl rfl) 0 0

/-! ### Rewriting lemmas for concrete runs of the serial engine -/

/-- A spin update in which neither acceptance branch fires leaves the
configuration alone, stores the accumulated energy difference and consumes
one `crand()` draw. -/
theorem spinUpdate_no_flip (maxnb : ℕ) (slices : ℤ) (temp jperp : ℝ)
    (nbs : Nbs) (us : ℕ → ℝ) (islice : ℤ) (st : SweepState) (sidx : ℕ)
    (h1 : ¬ spinEdiff maxnb slices jperp st.confs nbs sidx islice st.ediff > 0)
    (h2 : ¬ Real.exp (spinEdiff maxnb slices jperp st.confs nbs sidx islice
        st.ediff / temp) > us st.uctr) :
    spinUpdate maxnb slices temp jperp nbs us islice st sidx
      = ⟨st.confs, spinEdiff maxnb slices jperp st.confs nbs sidx islice st.ediff,
          st.uctr + 1⟩ := by
  simp only [spinUpdate]
  rw [if_neg h1, if_neg h2]

/-- A spin update with strictly positive accumulated energy difference flips
unconditionally and consumes no draw. -/
theorem spinUpdate_flip_pos (maxnb : ℕ) (slices : ℤ) (temp jperp : ℝ)
    (nbs : Nbs) (us : ℕ → ℝ) (islice : ℤ) (st : SweepState) (sidx : ℕ)
    (h1 : spinEdiff maxnb slices jperp st.confs nbs sidx islice st.ediff > 0) :
    spinUpdate maxnb slices temp jperp nbs us islice st sidx
      = ⟨writeConf st.confs sidx islice (st.confs sidx islice * (-1)),
          spinEdiff maxnb slices jperp st.confs nbs sidx islice st.ediff, st.uctr⟩ := by
  simp only [spinUpdate]
  rw [if_pos h1]

/-- A spin update whose exponential weight beats the current draw flips and
consumes that draw. -/
theorem spinUpdate_flip_exp (maxnb : ℕ) (slices : ℤ) (temp jperp : ℝ)
    (nbs : Nbs) (us : ℕ → ℝ) (islice : ℤ) (st : SweepState) (sidx : ℕ)
    (h1 : ¬ spinEdiff maxnb slices jperp st.confs nbs sidx islice st.ediff > 0)
    (h2 : Real.exp (spinEdiff maxnb slices jperp st.confs nbs sidx islice
        st.ediff / temp) > us st.uctr) :
    spinUpdate maxnb slices temp jperp nbs us islice st sidx
      = ⟨writeConf st.confs sidx islice (st.confs sidx islice * (-1)),
          spinEdiff maxnb slices jperp st.confs nbs sidx islice st.ediff,
          st.uctr + 1⟩ := by
  simp only [spinUpdate]
  rw [if_neg h1, if_pos h2]

/-! ### C4: `ediff` is reset per slice, not per spin -/

/-- Neighbor table for the C4 run: spin 0 carries a self-entry with coupling
3, spin 1 a self-entry with coupling -3. -/
def nbsC4 : Nbs := fun s _ => if s = 0 then (0, 3) else (1, -3)

/-- C4 failing run (2 spins, 2 slices, temperature 1, `jperp = 1`, all spins
+1, draws constantly 1, spin order `[0, 1]`): spin 0's update leaves the
accumulator at -10 and the source only zeroes `ediff` after the whole spin
loop of the slice, so spin 1's decision is taken at `-10 + 2 = -8` and spin 1
is NOT flipped (its value stays 1); with the per-spin reset the claim
describes, spin 1's own energy difference is `2 > 0` and the update flips it
to -1. -/
theorem sliceSweep_ediff_not_reset_per_spin :
    (spinUpdate 1 2 1 1 nbsC4 (fun _ => 1) 0 ⟨confOne, 0, 0⟩ 0).ediff = -10
    ∧ (sliceSweep 1 2 1 1 nbsC4 (fun _ => 1) [0, 1] 0 ⟨confOne, 0, 0⟩).confs 1 0 = 1
    ∧ spinEdiff 1 2 1 confOne nbsC4 1 0 0 = 2
    ∧ (spinUpdate 1 2 1 1 nbsC4 (fun _ => 1) 0 ⟨confOne, 0, 1⟩ 1).confs 1 0 = -1 := by
  have hd0 : spinEdiff 1 2 1 confOne nbsC4 0 0 (0 : ℝ) = -10 := by
    norm_num [spinEdiff, intraAccum, neighborTerm, trotterIndices, nbsC4, confOne,
      List.range_succ]
  have hd1c : spinEdiff 1 2 1 confOne nbsC4 1 0 (-10 : ℝ) = -8 := by
    norm_num [spinEdiff, intraAccum, neighborTerm, trotterIndices, nbsC4, confOne,
      List.range_succ]
  have hd1f : spinEdiff 1 2 1 confOne nbsC4 1 0 (0 : ℝ) = 2 := by
    norm_num [spinEdiff, intraAccum, neighborTerm, trotterIndices, nbsC4, confOne,
      List.range_succ]
  have hn0 : ¬ spinEdiff 1 2 1 confOne nbsC4 0 0 (0 : ℝ) > 0 := by rw [hd0]; norm_num
  have he0 : ¬ Real.exp (spinEdiff 1 2 1 confOne nbsC4 0 0 (0 : ℝ) / 1) > (1 : ℝ) := by
    rw [hd0, not_lt, Real.exp_le_one_iff]; norm_num
  have hu0 : spinUpdate 1 2 1 1 nbsC4 (fun _ => 1) 0 ⟨confOne, 0, 0⟩ 0
      = ⟨confOne, -10, 1⟩ := by
    rw [spinUpdate_no_flip 1 2 1 1 nbsC4 (fun _ => 1) 0 ⟨confOne, 0, 0⟩ 0 hn0 he0, hd0]
  have hn1 : ¬ spinEdiff 1 2 1 confOne nbsC4 1 0 (-10 : ℝ) > 0 := by rw [hd1c]; norm_num
  have he1 : ¬ Real.exp (spinEdiff 1 2 1 confOne nbsC4 1 0 (-10 : ℝ) / 1) > (1 : ℝ) := by
    rw [hd1c, not_lt, Real.exp_le_one_iff]; norm_num
  have hu1 : spinUpdate 1 2 1 1 nbsC4 (fun _ => 1) 0 ⟨confOne, -10, 1⟩ 1
      = ⟨confOne, -8, 2⟩ := by
    rw [spinUpdate_no_flip 1 2 1 1 nbsC4 (fun _ => 1) 0 ⟨confOne, -10, 1⟩ 1 hn1 he1, hd1c]
  have hp1 : spinEdiff 1 2 1 confOne nbsC4 1 0 (0 : ℝ) > 0 := by rw [hd1f]; norm_num
  have huf : spinUpdate 1 2 1 1 nbsC4 (fun _ => 1) 0 ⟨confOne, 0, 1⟩ 1
      = ⟨writeConf confOne 1 0 (confOne 1 0 * (-1)),
          spinEdiff 1 2 1 confOne nbsC4 1 0 0, 1⟩ :=
    spinUpdate_flip_pos 1 2 1 1 nbsC4 (fun _ => 1) 0 ⟨confOne, 0, 1⟩ 1 hp1
  refine ⟨by rw [hu0], ?_, hd1f, ?_⟩
  · simp only [sliceSweep, List.foldl_cons, List.foldl_nil, hu0, hu1]
    norm_num [confOne]
  · rw [huf]
    norm_num [writeConf, confOne]

/-! ### C8: sources of randomness of the serial entry point -/

/-- The coefficient computed by the driver at `slices = 2`, `temp = 1`,
`field = 1` is nonnegative (`tanh (1/2) ∈ [0, 1]`, so its log is ≤ 0). -/
theorem jperp211_nonneg : 0 ≤ jperpFormula 2 1 1 := by
  have h0 : 0 ≤ Real.tanh (1/2) := by
    rw [Real.tanh_eq_sinh_div_cosh]
    exact div_nonneg (Real.sinh_nonneg_iff.mpr (by norm_num)) (Real.cosh_pos _).le
  have h1 : Real.tanh (1/2) ≤ 1 := by
    rw [Real.tanh_eq_sinh_div_cosh]
    exact (div_le_one (Real.cosh_pos _)).mpr (Real.sinh_lt_cosh _).le
  have heq : jperpFormula 2 1 1 = -Real.log (Real.tanh (1/2)) := by
    unfold jperpFormula
    norm_num
  rw [heq]
  have := Real.log_nonpos h0 h1
  linarith

/-- With the trivial one-entry neighbor table, a single spin's energy
difference from a zero accumulator is just the two Trotter terms, which with
the stuck `tidx = 0` both read slice 1. -/
theorem spinEdiff_nbsZero (j : ℝ) (c : Conf) (islice : ℤ) :
    spinEdiff 1 2 j c nbsZero 0 islice 0 = -(4 * j * (c 0 islice * c 0 1)) := by
  simp [spinEdiff, intraAccum, neighborTerm, trotterIndices, nbsZero, List.range_succ]
  ring

/-- Configuration of the all-draws-0 run after the slice-0 flip. -/
def confA1 : Conf := writeConf confOne 0 0 (confOne 0 0 * (-1))

/-- Configuration of the all-draws-0 run after the slice-1 flip. -/
def confA2 : Conf := writeConf confA1 0 1 (confA1 0 1 * (-1))

/-- C8 counterexample: two serial anneal calls on identical inputs and the
identical injected-generator stream (`fun _ l => l`), differing only in the
C-library `rand()` draw stream (constantly 0 versus constantly 1), end with
different configurations: spin 0 of slice 0 is -1 in the first run and 1 in
the second.  The acceptance test reads `crand()`, not the injected `rng`, so
the injected generator's state is not the only source of randomness. -/
theorem quantumAnneal_crand_dependence :
    (QuantumAnneal [1] 1 2 1 1 confOne nbsZero 1 (fun _ l => l)
        (fun _ => 0)).confs 0 0 = -1
    ∧ (QuantumAnneal [1] 1 2 1 1 confOne nbsZero 1 (fun _ l => l)
        (fun _ => 1)).confs 0 0 = 1 := by
  have hj := jperp211_nonneg
  have eA0 : spinEdiff 1 2 (jperpFormula 2 1 1) confOne nbsZero 0 0 0
      = -(4 * jperpFormula 2 1 1) := by
    rw [spinEdiff_nbsZero]
    norm_num [confOne]
  have eA1 : spinEdiff 1 2 (jperpFormula 2 1 1) confA1 nbsZero 0 1 0
      = -(4 * jperpFormula 2 1 1) := by
    rw [spinEdiff_nbsZero]
    norm_num [confA1, writeConf, confOne]
  have eB1 : spinEdiff 1 2 (jperpFormula 2 1 1) confOne nbsZero 0 1 0
      = -(4 * jperpFormula 2 1 1) := by
    rw [spinEdiff_nbsZero]
    norm_num [confOne]
  have hn0 : ¬ spinEdiff 1 2 (jperpFormula 2 1 1) confOne nbsZero 0 0 (0 : ℝ) > 0 := by
    rw [eA0, not_lt]
    linarith
  have hn1 : ¬ spinEdiff 1 2 (jperpFormula 2 1 1) confA1 nbsZero 0 1 (0 : ℝ) > 0 := by
    rw [eA1, not_lt]
    linarith
  have hnB1 : ¬ spinEdiff 1 2 (jperpFormula 2 1 1) confOne nbsZero 0 1 (0 : ℝ) > 0 := by
    rw [eB1, not_lt]
    linarith
  have uA0 : spinUpdate 1 2 1 (jperpFormula 2 1 1) nbsZero (fun _ => 0) 0
      ⟨confOne, 0, 0⟩ 0 = ⟨confA1, -(4 * jperpFormula 2 1 1), 1⟩ := by
    rw [spinUpdate_flip_exp 1 2 1 (jperpFormula 2 1 1) nbsZero (fun _ => 0) 0
      ⟨confOne, 0, 0⟩ 0 hn0 (Real.exp_pos _), eA0]
    rfl
  have uA1 : spinUpdate 1 2 1 (jperpFormula 2 1 1) nbsZero (fun _ => 0) 1
      ⟨confA1, 0, 1⟩ 0 = ⟨confA2, -(4 * jperpFormula 2 1 1), 2⟩ := by
    rw [spinUpdate_flip_exp 1 2 1 (jperpFormula 2 1 1) nbsZero (fun _ => 0) 1
      ⟨confA1, 0, 1⟩ 0 hn1 (Real.exp_pos _), eA1]
    rfl
  have heB0 : ¬ Real.exp (spinEdiff 1 2 (jperpFormula 2 1 1) confOne nbsZero 0 0
      (0 : ℝ) / 1) > (1 : ℝ) := by
    rw [eA0, not_lt, Real.exp_le_one_iff, div_one]
    linarith
  have heB1 : ¬ Real.exp (spinEdiff 1 2 (jperpFormula 2 1 1) confOne nbsZero 0 1
      (0 : ℝ) / 1) > (1 : ℝ) := by
    rw [eB1, not_lt, Real.exp_le_one_iff, div_one]
    linarith
  have uB0 : spinUpdate 1 2 1 (jperpFormula 2 1 1) nbsZero (fun _ => 1) 0
      ⟨confOne, 0, 0⟩ 0 = ⟨confOne, -(4 * jperpFormula 2 1 1), 1⟩ := by
    rw [spinUpdate_no_flip 1 2 1 (jperpFormula 2 1 1) nbsZero (fun _ => 1) 0
      ⟨confOne, 0, 0⟩ 0 hn0 heB0, eA0]
  have uB1 : spinUpdate 1 2 1 (jperpFormula 2 1 1) nbsZero (fun _ => 1) 1
      ⟨confOne, 0, 1⟩ 0 = ⟨confOne, -(4 * jperpFormula 2 1 1), 2⟩ := by
    rw [spinUpdate_no_flip 1 2 1 (jperpFormula 2 1 1) nbsZero (fun _ => 1) 1
      ⟨confOne, 0, 1⟩ 0 hnB1 heB1, eB1]
  have sA0 : sliceSweep 1 2 1 (jperpFormula 2 1 1) nbsZero (fun _ => 0) [0] 0
      ⟨confOne, 0, 0⟩ = ⟨confA1, 0, 1⟩ := by
    simp only [sliceSweep, List.foldl_cons, List.foldl_nil]
    rw [uA0]
  have sA1 : sliceSweep 1 2 1 (jperpFormula 2 1 1) nbsZero (fun _ => 0) [0] 1
      ⟨confA1, 0, 1⟩ = ⟨confA2, 0, 2⟩ := by
    simp only [sliceSweep, List.foldl_cons, List.foldl_nil]
    rw [uA1]
  have sB0 : sliceSweep 1 2 1 (jperpFormula 2 1 1) nbsZero (fun _ => 1) [0] 0
      ⟨confOne, 0, 0⟩ = ⟨confOne, 0, 1⟩ := by
    simp only [sliceSweep, List.foldl_cons, List.foldl_nil]
    rw [uB0]
  have sB1 : sliceSweep 1 2 1 (jperpFormula 2 1 1) nbsZero (fun _ => 1) [0] 1
      ⟨confOne, 0, 1⟩ = ⟨confOne, 0, 2⟩ := by
    simp only [sliceSweep, List.foldl_cons, List.foldl_nil]
    rw [uB1]
  have mA : mcStep 1 2 1 (jperpFormula 2 1 1) nbsZero (fun _ => 0) (fun _ l => l)
      ⟨confOne, 0, 0, [0], 1⟩ = ⟨confA2, 0, 2, [0], 2⟩ := by
    simp only [mcStep, List.range_succ, List.range_zero, List.nil_append,
      List.cons_append, List.foldl_cons, List.foldl_nil, Nat.cast_zero,
      Nat.cast_one, Nat.cast_ofNat]
    rw [sA0, sA1]
  have mB : mcStep 1 2 1 (jperpFormula 2 1 1) nbsZero (fun _ => 1) (fun _ l => l)
      ⟨confOne, 0, 0, [0], 1⟩ = ⟨confOne, 0, 2, [0], 2⟩ := by
    simp only [mcStep, List.range_succ, List.range_zero, List.nil_append,
      List.cons_append, List.foldl_cons, List.foldl_nil, Nat.cast_zero,
      Nat.cast_one, Nat.cast_ofNat]
    rw [sB0, sB1]
  have qA : QuantumAnneal [1] 1 2 1 1 confOne nbsZero 1 (fun _ l => l) (fun _ => 0)
      = ⟨confA2, 0, 2, [0], 2⟩ := by
    simp only [QuantumAnneal, fieldStep, List.foldl_cons, List.foldl_nil,
      List.range_succ, List.range_zero, List.nil_append]
    exact mA
  have qB : QuantumAnneal [1] 1 2 1 1 confOne nbsZero 1 (fun _ l => l) (fun _ => 1)
      = ⟨confOne, 0, 2, [0], 2⟩ := by
    simp only [QuantumAnneal, fieldStep, List.foldl_cons, List.foldl_nil,
      List.range_succ, List.range_zero, List.nil_append]
    exact mB
  constructor
  · rw [qA]
    norm_num [confA2, confA1, writeConf, confOne]
  · rw [qB]
    norm_num [confOne]

/-- C8 amended: the output of the serial anneal is a function of its inputs,
the injected generator's permutation stream AND the C-library `rand()` draw
stream; with both streams fixed, two runs on identical inputs produce
identical final states. -/
theorem quantumAnneal_deterministic (sched : List ℝ) (mcsteps slices : ℕ)
    (temp : ℝ) (nspins : ℕ) (confs : Conf) (nbs : Nbs) (maxnb : ℕ)
    (perms perms2 : ℕ → List ℕ → List ℕ) (us us2 : ℕ → ℝ)
    (hp : perms = perms2) (hu : us = us2) :
    QuantumAnneal sched mcsteps slices temp nspins confs nbs maxnb perms us
      = QuantumAnneal sched mcsteps slices temp nspins confs nbs maxnb perms2 us2 := by
  rw [hp, hu]

/-- Closed instantiation of `quantumAnneal_deterministic` at a concrete call. -/
theorem quantumAnneal_deterministic_witness :
    QuantumAnneal [1] 1 2 1 1 confOne nbsZero 1 (fun _ l => l) (fun _ => 0)
      = QuantumAnneal [1] 1 2 1 1 confOne nbsZero 1 (fun _ l => l) (fun _ => 0) :=
  quantumAnneal_deterministic [1] 1 2 1 1 confOne nbsZero 1 (fun _ l => l)
    (fun _ l => l) (fun _ => 0) (fun _ => 0) rfl rfl
